import Mathlib

/-!
Shallow embedding of the texlab feature-resolution core:
`src/rename/latex_label.rs`, `src/rename/mod.rs`, and
`src/completion/bibtex/entry_type.rs`, together with the collaborator
interfaces those files use (positions, ranges, document snapshots,
feature requests, the choice combinator).
-/

/-- A cursor position: zero-based line and character (lsp_types `Position`). -/
structure Position where
  line : Nat
  character : Nat
deriving DecidableEq, Repr

/-- Lexicographic order on positions, as derived for lsp_types `Position`
(compare lines first, then characters). -/
def Position.le (a b : Position) : Bool :=
  a.line < b.line || (a.line == b.line && a.character ≤ b.character)

/-- A range: start and end positions (lsp_types `Range`). -/
structure Range where
  start : Position
  «end» : Position
deriving DecidableEq, Repr

/-- Modelled from the spec: the span-containment test (`RangeExt::contains`
in the protocol collaborator, not part of the source slice). The spec fixes
it from example behavior: a position is inside a range when it lies between
the start and the end, both boundaries inclusive (`self.start <= pos &&
self.end >= pos` over the lexicographic position order). -/
def Range.contains (r : Range) (pos : Position) : Bool :=
  Position.le r.start pos && Position.le pos r.«end»

/-- A span: a range paired with the literal text it covers
(`syntax::Span` in the source). -/
structure Span where
  range : Range
  text : String
deriving DecidableEq, Repr

/-- A label symbol of a LaTeX document: its resolved name-occurrence set
(declaration plus references), each occurrence a span carrying literal text.
This is the view `label.names(&table)` yields in the source; the linkage
resolution itself is a parser collaborator. -/
structure LatexLabel where
  names : List Span
deriving DecidableEq, Repr

/-- The symbol table of a parsed LaTeX document: its labels
(the `table.labels` the source iterates). -/
structure LatexTable where
  labels : List LatexLabel
deriving DecidableEq, Repr

/-- A BibTeX top-level declaration: a tagged variant over
Preamble, String-macro, Entry and Comment, each except Comment exposing
its type-field range (`preamble.ty`, `string.ty`, `entry.ty`). -/
inductive BibtexDeclaration where
  | Preamble (ty : Range)
  | Str (ty : Range)
  | Entry (ty : Range)
  | Comment
deriving DecidableEq, Repr

/-- A parsed BibTeX document: the children of its root node
(`tree.root.children`). -/
structure BibtexTree where
  children : List BibtexDeclaration
deriving DecidableEq, Repr

/-- The parsed content of one document, tagged by kind:
cross-reference-capable (`DocumentContent::Latex`) or bibliography-like
(`DocumentContent::Bibtex` / `SyntaxTree::Bibtex`). -/
inductive DocumentContent where
  | Latex (table : LatexTable)
  | Bibtex (tree : BibtexTree)
deriving DecidableEq, Repr

/-- A document snapshot: a stable URI-like identity plus parsed content. -/
structure Document where
  uri : String
  content : DocumentContent
deriving DecidableEq, Repr

/-- Modelled from the spec: a `FeatureRequest<P>` bundles the request
parameters, the current document snapshot and the sequence of related
document snapshots supplied by the workspace collaborator (the
`feature` module is not part of the source slice). -/
structure FeatureRequest (P : Type) where
  params : P
  current : Document
  relatedDocs : List Document

/-- Modelled from the spec: `req.related()` ranges over the current
document plus every related document supplied by the workspace
collaborator. -/
def FeatureRequest.related {P : Type} (req : FeatureRequest P) : List Document :=
  req.current :: req.relatedDocs

/-- lsp_types `TextDocumentPositionParams`, restricted to the field the
providers read: the cursor position. -/
structure TextDocumentPositionParams where
  position : Position
deriving DecidableEq, Repr

/-- lsp_types `RenameParams`: a text-document position plus the requested
new name. -/
structure RenameParams where
  text_document_position : TextDocumentPositionParams
  new_name : String
deriving DecidableEq, Repr

/-- lsp_types `CompletionParams`, restricted to the field the provider
reads: the cursor position. -/
structure CompletionParams where
  position : Position
deriving DecidableEq, Repr

/-- A text edit: replace `range` with `newText` (lsp_types `TextEdit`). -/
structure TextEdit where
  range : Range
  newText : String
deriving DecidableEq, Repr

/-- A workspace edit: a mapping from document identity to an ordered list
of text edits (lsp_types `WorkspaceEdit`), here as an association list. -/
structure WorkspaceEdit where
  changes : List (String × List TextEdit)
deriving DecidableEq, Repr

/-- `HashMap::insert`: replace the value under an existing key, otherwise
add a new binding. -/
def hmInsert (m : List (String × List TextEdit)) (k : String) (v : List TextEdit) :
    List (String × List TextEdit) :=
  if m.any (fun p => p.1 == k) then
    m.map (fun p => if p.1 == k then (k, v) else p)
  else
    m ++ [(k, v)]

/-- All name occurrences of a document's labels, in source order:
`table.labels.iter().flat_map(|label| label.names(&table))` for a LaTeX
document, and nothing for any other kind. -/
def occurrencesOf (content : DocumentContent) : List Span :=
  match content with
  | DocumentContent.Latex table => table.labels.flatMap (fun label => label.names)
  | DocumentContent.Bibtex _ => []

/-- `find_label` from `src/rename/latex_label.rs`: on a LaTeX document,
the first name occurrence whose range contains the position; `None` on
any other document kind. -/
def find_label (content : DocumentContent) (pos : Position) : Option Span :=
  match content with
  | DocumentContent.Latex table =>
      (table.labels.flatMap (fun label => label.names)).find?
        (fun label => label.range.contains pos)
  | DocumentContent.Bibtex _ => none

/-- `LatexLabelPrepareRenameProvider::execute`: the range of the label
occurrence covering the cursor, if any. -/
def latexLabelPrepareRename (req : FeatureRequest TextDocumentPositionParams) :
    Option Range :=
  (find_label req.current.content req.params.position).map (fun s => s.range)

/-- The per-document edit list built inside `LatexLabelRenameProvider::execute`:
one `TextEdit` per name occurrence whose literal text equals the resolved
name, replacing its range with the requested new name. -/
def editsFor (table : LatexTable) (nameText : String) (newName : String) :
    List TextEdit :=
  ((table.labels.flatMap (fun label => label.names)).filter
      (fun label => label.text == nameText)).map
    (fun label => TextEdit.mk label.range newName)

/-- The loop body of `LatexLabelRenameProvider::execute`: a LaTeX document
contributes its (possibly empty) edit list under its identity; any other
document is skipped. -/
def renameStep (nameText newName : String)
    (changes : List (String × List TextEdit)) (doc : Document) :
    List (String × List TextEdit) :=
  match doc.content with
  | DocumentContent.Latex table =>
      hmInsert changes doc.uri (editsFor table nameText newName)
  | DocumentContent.Bibtex _ => changes

/-- The `for doc in req.related()` loop of `LatexLabelRenameProvider::execute`,
threading the `changes` map. -/
def renameFold (nameText newName : String)
    (init : List (String × List TextEdit)) (docs : List Document) :
    List (String × List TextEdit) :=
  docs.foldl (renameStep nameText newName) init

/-- `LatexLabelRenameProvider::execute`: resolve the label at the cursor
(absent on failure), then over the current document plus every related
document, record for each LaTeX document the (possibly empty) edit list
under its identity; non-LaTeX documents are skipped. -/
def latexLabelRename (req : FeatureRequest RenameParams) : Option WorkspaceEdit :=
  match find_label req.current.content req.params.text_document_position.position with
  | none => none
  | some name =>
      some (WorkspaceEdit.mk
        (renameFold name.text req.params.new_name [] req.related))

/-- The loop body of `BibtexEntryTypeCompletionProvider::execute`: walk the
declarations in source order; on the first Preamble/String/Entry whose
type-field range contains the position, return the full catalog; Comment
declarations are skipped; an exhausted walk yields the empty list. -/
def bibtexEntryTypeLoop (items : List String) (pos : Position) :
    List BibtexDeclaration → List String
  | [] => []
  | decl :: rest =>
      match decl with
      | BibtexDeclaration.Preamble ty =>
          if ty.contains pos then items else bibtexEntryTypeLoop items pos rest
      | BibtexDeclaration.Str ty =>
          if ty.contains pos then items else bibtexEntryTypeLoop items pos rest
      | BibtexDeclaration.Entry ty =>
          if ty.contains pos then items else bibtexEntryTypeLoop items pos rest
      | BibtexDeclaration.Comment => bibtexEntryTypeLoop items pos rest

/-- `BibtexEntryTypeCompletionProvider::execute`: on a BibTeX document,
run the declaration walk; on any other kind, the empty list. The `items`
field is the provider's static catalog, built once at construction. -/
def bibtexEntryTypeExecute (items : List String)
    (req : FeatureRequest CompletionParams) : List String :=
  match req.current.content with
  | DocumentContent.Bibtex tree => bibtexEntryTypeLoop items req.params.position tree.children
  | DocumentContent.Latex _ => []

/-- Modelled from the spec: the static entry-type catalog
(`language_data().entry_types`, a data file outside the source slice);
the spec only requires it to be a fixed, non-empty, context-independent
list, so a representative list of BibTeX entry types stands for it. -/
def entryTypeCatalog : List String :=
  ["preamble", "string", "comment", "article", "book", "inproceedings", "misc"]

/-- Modelled from the spec: `ChoiceProvider::execute` (the `feature`
module is not part of the source slice): iterate the providers in
registration order, return the first usable result without invoking the
remaining providers, or the canonical empty output when the list is
exhausted. Providers are embedded as pure functions from requests to
outputs; `usable` is the output's non-empty/present predicate. -/
def choiceExecute {Req O : Type} (usable : O → Bool) (empty : O) :
    List (Req → O) → Req → O
  | [], _ => empty
  | p :: rest, req =>
      let result := p req
      if usable result then result else choiceExecute usable empty rest req

/-- Instrumented walk of `ChoiceProvider::execute`: the number of
providers actually invoked (each provider is awaited fully before the
next is attempted, so this is the prefix length up to and including the
first usable result). -/
def choiceInvoked {Req O : Type} (usable : O → Bool) :
    List (Req → O) → Req → Nat
  | [], _ => 0
  | p :: rest, req =>
      if usable (p req) then 1 else 1 + choiceInvoked usable rest req

/-- Whether a document is of cross-reference-capable (LaTeX) kind. -/
def isLatex (doc : Document) : Bool :=
  match doc.content with
  | DocumentContent.Latex _ => true
  | DocumentContent.Bibtex _ => false

/-- The number of entries a mapping holds under one document identity. -/
def countKey (m : List (String × List TextEdit)) (u : String) : Nat :=
  m.countP (fun p => p.1 == u)

/-- The total number of text edits in a workspace edit, across documents. -/
def totalEdits (we : WorkspaceEdit) : Nat :=
  (we.changes.map (fun p => p.2.length)).sum

/-- Whether a BibTeX declaration's type-field range contains the position
(Comment declarations never match). -/
def declMatches (pos : Position) (decl : BibtexDeclaration) : Bool :=
  match decl with
  | BibtexDeclaration.Preamble ty => ty.contains pos
  | BibtexDeclaration.Str ty => ty.contains pos
  | BibtexDeclaration.Entry ty => ty.contains pos
  | BibtexDeclaration.Comment => false

/-- Strict lexicographic order on positions. -/
def Position.lt (a b : Position) : Bool :=
  a.line < b.line || (a.line == b.line && a.character < b.character)

/-- Two ranges are disjoint when one ends strictly before the other starts
(with both containment boundaries inclusive, this rules out any shared
position). -/
def Range.disjoint (a b : Range) : Bool :=
  Position.lt a.«end» b.start || Position.lt b.«end» a.start

/-- The end lines of every range the providers test a position against in
one document: label name occurrences for a LaTeX document, declaration
type fields for a BibTeX document. A position on a strictly later line is
past the end of the document. -/
def contentEndLines (content : DocumentContent) : List Nat :=
  match content with
  | DocumentContent.Latex table =>
      (table.labels.flatMap (fun label => label.names)).map
        (fun s => s.range.«end».line)
  | DocumentContent.Bibtex tree =>
      tree.children.filterMap
        (fun decl =>
          match decl with
          | BibtexDeclaration.Preamble ty => some ty.«end».line
          | BibtexDeclaration.Str ty => some ty.«end».line
          | BibtexDeclaration.Entry ty => some ty.«end».line
          | BibtexDeclaration.Comment => none)

/-!
Supporting lemmas.
-/

/-- If no label occurrence contains the position, `find_label` is absent. -/
theorem find_label_eq_none (content : DocumentContent) (pos : Position)
    (h : ∀ occ ∈ occurrencesOf content, occ.range.contains pos = false) :
    find_label content pos = none := by
  cases content with
  | Latex table =>
      simp only [find_label, List.find?_eq_none]
      intro occ hocc
      have := h occ (by simpa [occurrencesOf] using hocc)
      simp [this]
  | Bibtex tree => rfl

/-- `find_label` is present exactly when some occurrence contains the
position. -/
theorem find_label_isSome (table : LatexTable) (pos : Position) :
    (find_label (DocumentContent.Latex table) pos).isSome = true ↔
      ∃ occ ∈ occurrencesOf (DocumentContent.Latex table),
        occ.range.contains pos = true := by
  simp only [find_label, occurrencesOf, List.find?_isSome, List.mem_flatMap]

/-!
Claims.
-/

/-- C3: when no label occurrence in the current document contains the
cursor position (wrong-kind and empty documents included), the rename
provider returns absent and emits no mapping at all. -/
theorem claim_C3 (req : FeatureRequest RenameParams)
    (h : ∀ occ ∈ occurrencesOf req.current.content,
      occ.range.contains req.params.text_document_position.position = false) :
    latexLabelRename req = none := by
  unfold latexLabelRename
  rw [find_label_eq_none _ _ h]

/-- A concrete rename request whose cursor misses every label occurrence. -/
def exampleReqC3 : FeatureRequest RenameParams where
  params := { text_document_position := { position := ⟨2, 0⟩ }, new_name := "bar" }
  current :=
    { uri := "main.tex",
      content := DocumentContent.Latex
        ⟨[⟨[⟨⟨⟨0, 7⟩, ⟨0, 10⟩⟩, "foo"⟩]⟩]⟩ }
  relatedDocs := []

theorem claim_C3_witness :
    (∀ occ ∈ occurrencesOf exampleReqC3.current.content,
      occ.range.contains exampleReqC3.params.text_document_position.position = false)
    ∧ latexLabelRename exampleReqC3 = none :=
  ⟨by decide, claim_C3 exampleReqC3 (by decide)⟩

/-- C7: on the same current document and cursor position, the rename
provider returns a present result exactly when the prepare-rename provider
does — both are driven by the same `find_label` lookup. -/
theorem claim_C7 (reqR : FeatureRequest RenameParams)
    (reqP : FeatureRequest TextDocumentPositionParams)
    (hdoc : reqP.current = reqR.current)
    (hpos : reqP.params.position = reqR.params.text_document_position.position) :
    (latexLabelRename reqR).isSome = (latexLabelPrepareRename reqP).isSome := by
  unfold latexLabelRename latexLabelPrepareRename
  rw [hdoc, hpos]
  cases find_label reqR.current.content reqR.params.text_document_position.position <;>
    simp

/-- A concrete rename request whose cursor hits a label occurrence. -/
def exampleReqC7 : FeatureRequest RenameParams where
  params := { text_document_position := { position := ⟨0, 8⟩ }, new_name := "bar" }
  current :=
    { uri := "foo.tex",
      content := DocumentContent.Latex
        ⟨[⟨[⟨⟨⟨0, 7⟩, ⟨0, 10⟩⟩, "foo"⟩]⟩]⟩ }
  relatedDocs := []

/-- The prepare-rename request matching `exampleReqC7`, with a different
related-document list. -/
def exampleReqC7p : FeatureRequest TextDocumentPositionParams where
  params := { position := ⟨0, 8⟩ }
  current := exampleReqC7.current
  relatedDocs := [{ uri := "bar.tex", content := DocumentContent.Bibtex ⟨[]⟩ }]

theorem claim_C7_witness :
    (latexLabelRename exampleReqC7).isSome
      = (latexLabelPrepareRename exampleReqC7p).isSome :=
  claim_C7 exampleReqC7 exampleReqC7p rfl rfl

/-- C10: the entry-type completion provider's output depends only on the
current document's parsed tree and the cursor position; related documents
and every other request component are never read. -/
theorem claim_C10 (items : List String)
    (req1 req2 : FeatureRequest CompletionParams)
    (hdoc : req1.current.content = req2.current.content)
    (hpos : req1.params.position = req2.params.position) :
    bibtexEntryTypeExecute items req1 = bibtexEntryTypeExecute items req2 := by
  unfold bibtexEntryTypeExecute
  rw [hdoc, hpos]

/-- A concrete completion request on a BibTeX document. -/
def exampleReqC10a : FeatureRequest CompletionParams where
  params := { position := ⟨0, 1⟩ }
  current :=
    { uri := "foo.bib",
      content := DocumentContent.Bibtex
        ⟨[BibtexDeclaration.Entry ⟨⟨0, 0⟩, ⟨0, 1⟩⟩]⟩ }
  relatedDocs := []

/-- The same tree and position as `exampleReqC10a`, but a different document
identity and related-document list. -/
def exampleReqC10b : FeatureRequest CompletionParams where
  params := { position := ⟨0, 1⟩ }
  current := { uri := "other.bib", content := exampleReqC10a.current.content }
  relatedDocs := [{ uri := "x.tex", content := DocumentContent.Latex ⟨[]⟩ }]

theorem claim_C10_witness :
    bibtexEntryTypeExecute entryTypeCatalog exampleReqC10a
      = bibtexEntryTypeExecute entryTypeCatalog exampleReqC10b :=
  claim_C10 entryTypeCatalog exampleReqC10a exampleReqC10b rfl rfl

/-- Inserting under a fresh key appends the binding. -/
theorem hmInsert_not_mem (m : List (String × List TextEdit)) (k : String)
    (v : List TextEdit) (h : ∀ p ∈ m, (p.1 == k) = false) :
    hmInsert m k v = m ++ [(k, v)] := by
  unfold hmInsert
  have hany : m.any (fun p => p.1 == k) = false := by
    simp only [List.any_eq_false]
    intro p hp
    simp [h p hp]
  simp [hany]

/-- The per-document result of the rename loop, as one step of a
`filterMap`: a LaTeX document yields its keyed edit list, any other
document yields nothing. -/
def renameEntry (nameText newName : String) (doc : Document) :
    Option (String × List TextEdit) :=
  match doc.content with
  | DocumentContent.Latex table => some (doc.uri, editsFor table nameText newName)
  | DocumentContent.Bibtex _ => none

/-- With pairwise-distinct document identities, the rename loop builds
exactly the `filterMap` of `renameEntry` after the initial map. -/
theorem renameFold_eq_filterMap (nameText newName : String)
    (docs : List Document) (init : List (String × List TextEdit))
    (hinit : ∀ p ∈ init, ∀ doc ∈ docs, (p.1 == doc.uri) = false)
    (hnodup : (docs.map Document.uri).Nodup) :
    renameFold nameText newName init docs =
      init ++ docs.filterMap (renameEntry nameText newName) := by
  induction docs generalizing init with
  | nil => simp [renameFold]
  | cons d rest ih =>
      have hnd := hnodup
      simp only [List.map_cons, List.nodup_cons] at hnd
      obtain ⟨hdni, hndr⟩ := hnd
      cases hcd : d.content with
      | Latex table =>
          have hstep : renameStep nameText newName init d =
              init ++ [(d.uri, editsFor table nameText newName)] := by
            unfold renameStep
            rw [hcd]
            exact hmInsert_not_mem init d.uri _
              (fun p hp => hinit p hp d (List.mem_cons_self d rest))
          have hinit' : ∀ p ∈ init ++ [(d.uri, editsFor table nameText newName)],
              ∀ doc ∈ rest, (p.1 == doc.uri) = false := by
            intro p hp doc hdoc
            rcases List.mem_append.mp hp with hleft | hright
            · exact hinit p hleft doc (List.mem_cons_of_mem d hdoc)
            · have hpd : p = (d.uri, editsFor table nameText newName) := by
                simpa using hright
              have : d.uri ≠ doc.uri := by
                intro hcontra
                exact hdni (hcontra ▸ List.mem_map_of_mem Document.uri hdoc)
              simp [hpd, this]
          have hrec := ih (init ++ [(d.uri, editsFor table nameText newName)])
            hinit' hndr
          simp only [renameFold, List.foldl_cons] at hrec ⊢
          rw [hstep, hrec]
          simp [renameEntry, hcd]
      | Bibtex tree =>
          have hstep : renameStep nameText newName init d = init := by
            unfold renameStep
            rw [hcd]
          have hrec := ih init
            (fun p hp doc hdoc => hinit p hp doc (List.mem_cons_of_mem d hdoc)) hndr
          simp only [renameFold, List.foldl_cons] at hrec ⊢
          rw [hstep, hrec]
          simp [renameEntry, hcd]

/-- Counting a key in the `filterMap` counts the LaTeX documents carrying
that identity. -/
theorem countKey_filterMap (nameText newName : String)
    (docs : List Document) (u : String) :
    countKey (docs.filterMap (renameEntry nameText newName)) u =
      docs.countP (fun d => isLatex d && (d.uri == u)) := by
  induction docs with
  | nil => rfl
  | cons d rest ih =>
      cases hcd : d.content with
      | Latex table =>
          have hl : isLatex d = true := by simp [isLatex, hcd]
          simp only [List.filterMap_cons, renameEntry, hcd, countKey,
            List.countP_cons, hl, Bool.true_and]
          simp only [countKey] at ih
          omega
      | Bibtex tree =>
          have hl : isLatex d = false := by simp [isLatex, hcd]
          simp only [List.filterMap_cons, renameEntry, hcd, countKey,
            List.countP_cons, hl, Bool.false_and]
          simp only [countKey] at ih
          simp [ih]

/-- With pairwise-distinct identities, a document predicate that pins the
identity holds for at most one document: its count collapses to an
existence test. -/
theorem countP_eq_ite_of_nodup (docs : List Document) (u : String)
    (hnodup : (docs.map Document.uri).Nodup) (q : Document → Bool)
    (hq : ∀ d, q d = true → d.uri = u) :
    docs.countP q = if docs.any q then 1 else 0 := by
  induction docs with
  | nil => rfl
  | cons d rest ih =>
      have hnd := hnodup
      simp only [List.map_cons, List.nodup_cons] at hnd
      obtain ⟨hdni, hndr⟩ := hnd
      by_cases hqd : q d = true
      · have hrest : rest.countP q = 0 := by
          rw [List.countP_eq_zero]
          intro a ha hqa
          exact hdni ((hq d hqd).trans (hq a hqa).symm ▸
            List.mem_map_of_mem Document.uri ha)
        simp [List.countP_cons, List.any_cons, hqd, hrest]
      · have hqd' : q d = false := by simpa using hqd
        simp [List.countP_cons, List.any_cons, hqd', ih hndr]

/-- C1: when the cursor resolves to a label occurrence and document
identities are pairwise distinct, the rename result is a present workspace
edit whose mapping has exactly one entry for each LaTeX document among the
current and related documents — the current document included — and no
entry for any document of any other kind. -/
theorem claim_C1 (req : FeatureRequest RenameParams)
    (hnodup : (req.related.map Document.uri).Nodup) (name : Span)
    (hfind : find_label req.current.content
      req.params.text_document_position.position = some name) :
    ∃ we, latexLabelRename req = some we ∧
      countKey we.changes req.current.uri = 1 ∧
      ∀ u : String, countKey we.changes u =
        if req.related.any (fun d => isLatex d && (d.uri == u)) then 1 else 0 := by
  have hexec : latexLabelRename req = some (WorkspaceEdit.mk
      (renameFold name.text req.params.new_name [] req.related)) := by
    unfold latexLabelRename
    rw [hfind]
  have hchanges : renameFold name.text req.params.new_name [] req.related =
      req.related.filterMap (renameEntry name.text req.params.new_name) :=
    renameFold_eq_filterMap _ _ _ _ (by intro p hp; simp at hp) hnodup
  refine ⟨_, hexec, ?_, ?_⟩
  · have hcur : isLatex req.current = true := by
      cases hcd : req.current.content with
      | Latex table => simp [isLatex, hcd]
      | Bibtex tree =>
          rw [hcd] at hfind
          simp [find_label] at hfind
    have hany : req.related.any
        (fun d => isLatex d && (d.uri == req.current.uri)) = true := by
      rw [List.any_eq_true]
      exact ⟨req.current, List.mem_cons_self .., by simp [hcur]⟩
    have hq : ∀ d : Document,
        (isLatex d && (d.uri == req.current.uri)) = true →
        d.uri = req.current.uri := by
      intro d hd
      exact beq_iff_eq.mp ((Bool.and_eq_true ..).mp hd).2
    have hcount := countP_eq_ite_of_nodup req.related req.current.uri hnodup _ hq
    simp only [hchanges, countKey_filterMap, hcount, hany, if_true]
  · intro u
    simp only [hchanges, countKey_filterMap]
    exact countP_eq_ite_of_nodup req.related u hnodup _
      (fun d hd => by
        have := (Bool.and_eq_true ..).mp hd
        exact beq_iff_eq.mp this.2)

/-- A concrete rename request: `foo.tex` declares label `foo`, related
`bar.tex` references it, related `baz.bib` is of the other kind. -/
def exampleReqC1 : FeatureRequest RenameParams where
  params := { text_document_position := { position := ⟨0, 7⟩ }, new_name := "bar" }
  current :=
    { uri := "foo.tex",
      content := DocumentContent.Latex
        ⟨[⟨[⟨⟨⟨0, 7⟩, ⟨0, 10⟩⟩, "foo"⟩]⟩]⟩ }
  relatedDocs :=
    [{ uri := "bar.tex",
       content := DocumentContent.Latex
         ⟨[⟨[⟨⟨⟨0, 5⟩, ⟨0, 8⟩⟩, "foo"⟩]⟩]⟩ },
     { uri := "baz.bib", content := DocumentContent.Bibtex ⟨[]⟩ }]

theorem claim_C1_witness :
    ∃ we, latexLabelRename exampleReqC1 = some we ∧
      countKey we.changes exampleReqC1.current.uri = 1 ∧
      ∀ u : String, countKey we.changes u =
        if exampleReqC1.related.any (fun d => isLatex d && (d.uri == u)) then 1
        else 0 :=
  claim_C1 exampleReqC1 (by decide) ⟨⟨⟨0, 7⟩, ⟨0, 10⟩⟩, "foo"⟩ (by decide)

/-- The edit list of one document has one edit per matching occurrence. -/
theorem editsFor_length (table : LatexTable) (nameText newName : String) :
    (editsFor table nameText newName).length =
      (occurrencesOf (DocumentContent.Latex table)).countP
        (fun s => s.text == nameText) := by
  simp [editsFor, occurrencesOf, List.countP_eq_length_filter]

/-- Summing the edit-list lengths over the rename mapping counts the
matching occurrences of every scanned document. -/
theorem totalEdits_filterMap (nameText newName : String) (docs : List Document) :
    ((docs.filterMap (renameEntry nameText newName)).map
        (fun p => p.2.length)).sum =
      (docs.map (fun d => (occurrencesOf d.content).countP
        (fun s => s.text == nameText))).sum := by
  induction docs with
  | nil => rfl
  | cons d rest ih =>
      cases hcd : d.content with
      | Latex table =>
          simp [renameEntry, hcd, ih, editsFor_length]
      | Bibtex tree =>
          simp [renameEntry, hcd, ih, occurrencesOf]

/-- Every edit in a document's edit list replaces the range of a matching
occurrence with the requested new name. -/
theorem editsFor_mem (table : LatexTable) (nameText newName : String)
    (e : TextEdit) (he : e ∈ editsFor table nameText newName) :
    e.newText = newName ∧
      ∃ occ ∈ occurrencesOf (DocumentContent.Latex table),
        occ.text = nameText ∧ e.range = occ.range := by
  simp only [editsFor, List.mem_map, List.mem_filter] at he
  obtain ⟨s, ⟨hs, hst⟩, rfl⟩ := he
  exact ⟨rfl, s, by simpa [occurrencesOf] using hs, beq_iff_eq.mp hst, rfl⟩

/-- C2: a successful rename of a label with M matching name occurrences
(declaration plus references, compared case-sensitively for exact equality)
across the scanned documents produces exactly M text edits in total, each
replacing one matching occurrence's range with the requested new name. -/
theorem claim_C2 (req : FeatureRequest RenameParams)
    (hnodup : (req.related.map Document.uri).Nodup) (name : Span)
    (hfind : find_label req.current.content
      req.params.text_document_position.position = some name) :
    ∃ we, latexLabelRename req = some we ∧
      totalEdits we =
        (req.related.map (fun d => (occurrencesOf d.content).countP
          (fun s => s.text == name.text))).sum ∧
      ∀ entry ∈ we.changes, ∀ e ∈ entry.2,
        e.newText = req.params.new_name ∧
        ∃ doc ∈ req.related, ∃ occ ∈ occurrencesOf doc.content,
          occ.text = name.text ∧ e.range = occ.range := by
  have hexec : latexLabelRename req = some (WorkspaceEdit.mk
      (renameFold name.text req.params.new_name [] req.related)) := by
    unfold latexLabelRename
    rw [hfind]
  have hchanges : renameFold name.text req.params.new_name [] req.related =
      req.related.filterMap (renameEntry name.text req.params.new_name) :=
    renameFold_eq_filterMap _ _ _ _ (by intro p hp; simp at hp) hnodup
  refine ⟨_, hexec, ?_, ?_⟩
  · simp only [totalEdits, hchanges]
    exact totalEdits_filterMap name.text req.params.new_name req.related
  · intro entry hentry e he
    simp only [hchanges] at hentry
    obtain ⟨doc, hdoc, hsome⟩ := List.mem_filterMap.mp hentry
    cases hcd : doc.content with
    | Latex table =>
        simp only [renameEntry, hcd, Option.some_inj] at hsome
        rw [← hsome] at he
        obtain ⟨hnew, occ, hocc, htext, hrange⟩ :=
          editsFor_mem table name.text req.params.new_name e he
        exact ⟨hnew, doc, hdoc, occ, by rwa [hcd], htext, hrange⟩
    | Bibtex tree => simp [renameEntry, hcd] at hsome

/-- A concrete rename request whose label has three matching occurrences
spread over two LaTeX documents. -/
def exampleReqC2 : FeatureRequest RenameParams where
  params := { text_document_position := { position := ⟨0, 8⟩ }, new_name := "new" }
  current :=
    { uri := "a.tex",
      content := DocumentContent.Latex
        ⟨[⟨[⟨⟨⟨0, 7⟩, ⟨0, 10⟩⟩, "sec"⟩, ⟨⟨⟨1, 5⟩, ⟨1, 8⟩⟩, "sec"⟩]⟩]⟩ }
  relatedDocs :=
    [{ uri := "b.tex",
       content := DocumentContent.Latex
         ⟨[⟨[⟨⟨⟨0, 5⟩, ⟨0, 8⟩⟩, "sec"⟩]⟩]⟩ }]

theorem claim_C2_witness :
    ∃ we, latexLabelRename exampleReqC2 = some we ∧
      totalEdits we =
        (exampleReqC2.related.map (fun d => (occurrencesOf d.content).countP
          (fun s => s.text ==
            (Span.mk ⟨⟨0, 7⟩, ⟨0, 10⟩⟩ "sec").text))).sum ∧
      ∀ entry ∈ we.changes, ∀ e ∈ entry.2,
        e.newText = exampleReqC2.params.new_name ∧
        ∃ doc ∈ exampleReqC2.related, ∃ occ ∈ occurrencesOf doc.content,
          occ.text = (Span.mk ⟨⟨0, 7⟩, ⟨0, 10⟩⟩ "sec").text ∧
          e.range = occ.range :=
  claim_C2 exampleReqC2 (by decide) ⟨⟨⟨0, 7⟩, ⟨0, 10⟩⟩, "sec"⟩ (by decide)

/-- Every entry of an insertion result is an old entry or the new binding. -/
theorem hmInsert_mem (m : List (String × List TextEdit)) (k : String)
    (v : List TextEdit) (q : String × List TextEdit)
    (hq : q ∈ hmInsert m k v) : q ∈ m ∨ q = (k, v) := by
  unfold hmInsert at hq
  by_cases hany : m.any (fun p => p.1 == k) = true
  · rw [if_pos hany] at hq
    obtain ⟨p, hp, hpq⟩ := List.mem_map.mp hq
    by_cases hpk : (p.1 == k) = true
    · right
      rw [if_pos hpk] at hpq
      exact hpq.symm
    · left
      rw [if_neg hpk] at hpq
      exact hpq ▸ hp
  · rw [if_neg hany] at hq
    rcases List.mem_append.mp hq with h | h
    · exact Or.inl h
    · exact Or.inr (by simpa using h)

/-- Every entry of the rename loop's mapping comes from the initial map or
is the keyed edit list of some LaTeX document in the scanned list. -/
theorem renameFold_mem (nameText newName : String) (docs : List Document)
    (init : List (String × List TextEdit)) (q : String × List TextEdit)
    (hq : q ∈ renameFold nameText newName init docs) :
    q ∈ init ∨ ∃ doc ∈ docs, ∃ table,
      doc.content = DocumentContent.Latex table ∧
      q = (doc.uri, editsFor table nameText newName) := by
  induction docs generalizing init with
  | nil => exact Or.inl hq
  | cons d rest ih =>
      simp only [renameFold, List.foldl_cons] at hq
      rcases ih (renameStep nameText newName init d) hq with hin | hfound
      · cases hcd : d.content with
        | Latex table =>
            unfold renameStep at hin
            rw [hcd] at hin
            rcases hmInsert_mem init d.uri _ q hin with h | h
            · exact Or.inl h
            · exact Or.inr ⟨d, List.mem_cons_self .., table, hcd, h⟩
        | Bibtex tree =>
            unfold renameStep at hin
            rw [hcd] at hin
            exact Or.inl hin
      · obtain ⟨doc, hdoc, table, hcd, hqd⟩ := hfound
        exact Or.inr ⟨doc, List.mem_cons_of_mem d hdoc, table, hcd, hqd⟩

/-- C8: when name occurrences within each document are pairwise disjoint,
every per-document edit list of a present rename result consists of
pairwise disjoint edits, and every edited range is the range of an
occurrence whose literal text equals the resolved name, replaced by the
requested new name — no unrelated text is touched. -/
theorem claim_C8 (req : FeatureRequest RenameParams)
    (hdisj : ∀ doc ∈ req.related, (occurrencesOf doc.content).Pairwise
      (fun a b => Range.disjoint a.range b.range = true))
    (we : WorkspaceEdit) (hwe : latexLabelRename req = some we) :
    ∃ name, find_label req.current.content
        req.params.text_document_position.position = some name ∧
      ∀ entry ∈ we.changes,
        entry.2.Pairwise (fun e1 e2 => Range.disjoint e1.range e2.range = true)
        ∧ ∀ e ∈ entry.2,
            e.newText = req.params.new_name ∧
            ∃ doc ∈ req.related, ∃ occ ∈ occurrencesOf doc.content,
              occ.text = name.text ∧ e.range = occ.range := by
  unfold latexLabelRename at hwe
  cases hfind : find_label req.current.content
      req.params.text_document_position.position with
  | none => rw [hfind] at hwe; exact absurd hwe (by simp)
  | some name =>
      rw [hfind] at hwe
      refine ⟨name, rfl, ?_⟩
      intro entry hentry
      have hch : entry ∈ renameFold name.text req.params.new_name []
          req.related := by
        have : we = WorkspaceEdit.mk (renameFold name.text req.params.new_name []
            req.related) := by simpa using hwe.symm
        rw [this] at hentry
        exact hentry
      rcases renameFold_mem name.text req.params.new_name req.related [] entry hch
        with h | ⟨doc, hdoc, table, hcd, hqd⟩
      · simp at h
      refine ⟨?_, ?_⟩
      · have hodisj := hdisj doc hdoc
        rw [hcd] at hodisj
        rw [hqd]
        simp only [editsFor]
        rw [List.pairwise_map]
        exact (List.Pairwise.sublist (List.filter_sublist _) hodisj).imp
          (fun h => h)
      · intro e he
        rw [hqd] at he
        obtain ⟨hnew, occ, hocc, htext, hrange⟩ :=
          editsFor_mem table name.text req.params.new_name e he
        exact ⟨hnew, doc, hdoc, occ, by rwa [hcd], htext, hrange⟩

/-- A concrete rename request with disjoint occurrences in two documents. -/
def exampleReqC8 : FeatureRequest RenameParams where
  params := { text_document_position := { position := ⟨0, 7⟩ }, new_name := "bar" }
  current :=
    { uri := "a.tex",
      content := DocumentContent.Latex
        ⟨[⟨[⟨⟨⟨0, 7⟩, ⟨0, 10⟩⟩, "foo"⟩]⟩]⟩ }
  relatedDocs :=
    [{ uri := "b.tex",
       content := DocumentContent.Latex
         ⟨[⟨[⟨⟨⟨0, 5⟩, ⟨0, 8⟩⟩, "foo"⟩]⟩]⟩ }]

/-- The workspace edit the rename of `exampleReqC8` produces. -/
def exampleWeC8 : WorkspaceEdit where
  changes :=
    [("a.tex", [⟨⟨⟨0, 7⟩, ⟨0, 10⟩⟩, "bar"⟩]),
     ("b.tex", [⟨⟨⟨0, 5⟩, ⟨0, 8⟩⟩, "bar"⟩])]

theorem claim_C8_witness :
    (∀ doc ∈ exampleReqC8.related, (occurrencesOf doc.content).Pairwise
      (fun a b => Range.disjoint a.range b.range = true))
    ∧ ∃ name, find_label exampleReqC8.current.content
        exampleReqC8.params.text_document_position.position = some name ∧
      ∀ entry ∈ exampleWeC8.changes,
        entry.2.Pairwise (fun e1 e2 => Range.disjoint e1.range e2.range = true)
        ∧ ∀ e ∈ entry.2,
            e.newText = exampleReqC8.params.new_name ∧
            ∃ doc ∈ exampleReqC8.related, ∃ occ ∈ occurrencesOf doc.content,
              occ.text = name.text ∧ e.range = occ.range :=
  ⟨by decide, claim_C8 exampleReqC8 (by decide) exampleWeC8 (by decide)⟩

/-- C4: prepare-rename is absent on a document that is not
cross-reference-capable; on a LaTeX document it returns the own range of
an occurrence containing the cursor when one exists, and absent when none
does. -/
theorem claim_C4 (req : FeatureRequest TextDocumentPositionParams) :
    (∀ tree, req.current.content = DocumentContent.Bibtex tree →
      latexLabelPrepareRename req = none)
    ∧ ((∃ occ ∈ occurrencesOf req.current.content,
          occ.range.contains req.params.position = true) →
        ∃ occ ∈ occurrencesOf req.current.content,
          occ.range.contains req.params.position = true ∧
          latexLabelPrepareRename req = some occ.range)
    ∧ ((∀ occ ∈ occurrencesOf req.current.content,
          occ.range.contains req.params.position = false) →
        latexLabelPrepareRename req = none) := by
  refine ⟨?_, ?_, ?_⟩
  · intro tree htree
    unfold latexLabelPrepareRename
    rw [find_label.eq_def, htree]
    rfl
  · intro hex
    cases hcd : req.current.content with
    | Bibtex tree =>
        rw [hcd] at hex
        simp [occurrencesOf] at hex
    | Latex table =>
        rw [hcd] at hex
        have hsome : (find_label (DocumentContent.Latex table)
            req.params.position).isSome = true :=
          (find_label_isSome table req.params.position).mpr hex
        obtain ⟨s, hs⟩ := Option.isSome_iff_exists.mp hsome
        have hmem : s ∈ occurrencesOf (DocumentContent.Latex table) := by
          rw [find_label] at hs
          exact List.mem_of_find?_eq_some hs
        have hcont : s.range.contains req.params.position = true := by
          rw [find_label] at hs
          simpa using List.find?_some hs
        refine ⟨s, hmem, hcont, ?_⟩
        unfold latexLabelPrepareRename
        rw [hcd, hs]
        rfl
  · intro hnone
    unfold latexLabelPrepareRename
    rw [find_label_eq_none _ _ hnone]
    rfl

/-- A concrete prepare-rename request hitting a label occurrence. -/
def exampleReqC4 : FeatureRequest TextDocumentPositionParams where
  params := { position := ⟨0, 9⟩ }
  current :=
    { uri := "doc.tex",
      content := DocumentContent.Latex
        ⟨[⟨[⟨⟨⟨0, 7⟩, ⟨0, 10⟩⟩, "lbl"⟩]⟩]⟩ }
  relatedDocs := []

theorem claim_C4_witness :
    (∃ occ ∈ occurrencesOf exampleReqC4.current.content,
      occ.range.contains exampleReqC4.params.position = true)
    ∧ ∃ occ ∈ occurrencesOf exampleReqC4.current.content,
        occ.range.contains exampleReqC4.params.position = true ∧
        latexLabelPrepareRename exampleReqC4 = some occ.range :=
  ⟨by decide, (claim_C4 exampleReqC4).2.1 (by decide)⟩

/-- The declaration walk returns the catalog exactly when some declaration's
type field contains the position, and the empty list otherwise. -/
theorem bibtexEntryTypeLoop_eq (items : List String) (pos : Position)
    (decls : List BibtexDeclaration) :
    bibtexEntryTypeLoop items pos decls =
      if decls.any (declMatches pos) then items else [] := by
  induction decls with
  | nil => rfl
  | cons d rest ih =>
      cases d with
      | Preamble ty =>
          by_cases h : ty.contains pos = true
          · simp [bibtexEntryTypeLoop, List.any_cons, declMatches, h]
          · simp only [Bool.not_eq_true] at h
            simp [bibtexEntryTypeLoop, List.any_cons, declMatches, h, ih]
      | Str ty =>
          by_cases h : ty.contains pos = true
          · simp [bibtexEntryTypeLoop, List.any_cons, declMatches, h]
          · simp only [Bool.not_eq_true] at h
            simp [bibtexEntryTypeLoop, List.any_cons, declMatches, h, ih]
      | Entry ty =>
          by_cases h : ty.contains pos = true
          · simp [bibtexEntryTypeLoop, List.any_cons, declMatches, h]
          · simp only [Bool.not_eq_true] at h
            simp [bibtexEntryTypeLoop, List.any_cons, declMatches, h, ih]
      | Comment =>
          simp [bibtexEntryTypeLoop, List.any_cons, declMatches, ih]

/-- C5: with a non-empty catalog, the entry-type completion provider
returns the full catalog exactly when the current document is
bibliography-like and the cursor sits in the type field of some Preamble,
String or Entry declaration (Comment declarations never match); in every
other case it returns the empty list. -/
theorem claim_C5 (items : List String) (req : FeatureRequest CompletionParams)
    (hne : items ≠ []) :
    (bibtexEntryTypeExecute items req = items ↔
      ∃ tree, req.current.content = DocumentContent.Bibtex tree ∧
        tree.children.any (declMatches req.params.position) = true)
    ∧ (bibtexEntryTypeExecute items req = [] ↔
      ¬ ∃ tree, req.current.content = DocumentContent.Bibtex tree ∧
        tree.children.any (declMatches req.params.position) = true) := by
  cases hcd : req.current.content with
  | Latex table =>
      have hexec : bibtexEntryTypeExecute items req = [] := by
        unfold bibtexEntryTypeExecute
        rw [hcd]
      rw [hexec]
      constructor
      · constructor
        · intro h
          exact absurd h.symm hne
        · rintro ⟨tree, htree, -⟩
          exact absurd htree (by simp)
      · constructor
        · rintro - ⟨tree, htree, -⟩
          exact absurd htree (by simp)
        · intro
          rfl
  | Bibtex tree =>
      have hexec : bibtexEntryTypeExecute items req =
          if tree.children.any (declMatches req.params.position) then items
          else [] := by
        unfold bibtexEntryTypeExecute
        rw [hcd]
        exact bibtexEntryTypeLoop_eq items req.params.position tree.children
      by_cases hany : tree.children.any (declMatches req.params.position) = true
      · rw [hexec, if_pos hany]
        constructor
        · simp only [iff_true_intro rfl, true_iff]
          exact ⟨tree, rfl, hany⟩
        · constructor
          · intro h
            exact absurd h hne
          · intro h
            exact absurd ⟨tree, rfl, hany⟩ h
      · simp only [Bool.not_eq_true] at hany
        rw [hexec, hany, if_neg (by simp)]
        constructor
        · constructor
          · intro h
            exact absurd h.symm hne
          · rintro ⟨tree2, htree2, hany2⟩
            have : tree2 = tree := by
              injection htree2.symm
            rw [this, hany] at hany2
            exact absurd hany2 (by simp)
        · constructor
          · rintro - ⟨tree2, htree2, hany2⟩
            have : tree2 = tree := by
              injection htree2.symm
            rw [this, hany] at hany2
            exact absurd hany2 (by simp)
          · intro
            rfl

/-- A concrete completion request with the cursor in an entry's type field. -/
def exampleReqC5 : FeatureRequest CompletionParams where
  params := { position := ⟨0, 1⟩ }
  current :=
    { uri := "lit.bib",
      content := DocumentContent.Bibtex
        ⟨[BibtexDeclaration.Comment,
          BibtexDeclaration.Entry ⟨⟨0, 0⟩, ⟨0, 8⟩⟩]⟩ }
  relatedDocs := []

theorem claim_C5_witness :
    bibtexEntryTypeExecute entryTypeCatalog exampleReqC5 = entryTypeCatalog :=
  (claim_C5 entryTypeCatalog exampleReqC5 (by decide)).1.mpr
    ⟨⟨[BibtexDeclaration.Comment, BibtexDeclaration.Entry ⟨⟨0, 0⟩, ⟨0, 8⟩⟩]⟩,
      rfl, by decide⟩

/-- A position on a line strictly after a range's end line is not
contained in the range. -/
theorem contains_eq_false_of_line (r : Range) (pos : Position)
    (h : r.«end».line < pos.line) : r.contains pos = false := by
  have h1 : ¬ pos.line < r.«end».line := by omega
  have h2 : (pos.line == r.«end».line) = false := by
    simp only [beq_eq_false_iff_ne, ne_eq]
    omega
  simp [Range.contains, Position.le, h1, h2]

/-- C9: a cursor position past the end of the current document (on a line
strictly after every tested range) makes completion return the empty list
and prepare-rename and rename return absent; the operations are total
functions with no separate failure path. -/
theorem claim_C9 (items : List String) (current : Document)
    (relatedDocs : List Document) (pos : Position) (newName : String)
    (h : ∀ l ∈ contentEndLines current.content, l < pos.line) :
    bibtexEntryTypeExecute items ⟨⟨pos⟩, current, relatedDocs⟩ = []
    ∧ latexLabelPrepareRename ⟨⟨pos⟩, current, relatedDocs⟩ = none
    ∧ latexLabelRename ⟨⟨⟨pos⟩, newName⟩, current, relatedDocs⟩ = none := by
  have hocc : ∀ occ ∈ occurrencesOf current.content,
      occ.range.contains pos = false := by
    intro occ hmem
    cases hcd : current.content with
    | Latex table =>
        rw [hcd] at hmem
        refine contains_eq_false_of_line _ _ (h occ.range.«end».line ?_)
        rw [hcd]
        simp only [contentEndLines, List.mem_map]
        exact ⟨occ, by simpa [occurrencesOf] using hmem, rfl⟩
    | Bibtex tree =>
        rw [hcd] at hmem
        simp [occurrencesOf] at hmem
  refine ⟨?_, ?_, ?_⟩
  · cases hcd : current.content with
    | Latex table =>
        unfold bibtexEntryTypeExecute
        rw [hcd]
    | Bibtex tree =>
        unfold bibtexEntryTypeExecute
        rw [hcd]
        show bibtexEntryTypeLoop items pos tree.children = []
        rw [bibtexEntryTypeLoop_eq]
        have hany : tree.children.any (declMatches pos) = false := by
          rw [List.any_eq_false]
          intro d hd
          cases d with
          | Preamble ty =>
              have hline : ty.«end».line < pos.line := by
                refine h ty.«end».line ?_
                rw [hcd]
                simp only [contentEndLines, List.mem_filterMap]
                exact ⟨BibtexDeclaration.Preamble ty, hd, rfl⟩
              simp [declMatches, contains_eq_false_of_line ty pos hline]
          | Str ty =>
              have hline : ty.«end».line < pos.line := by
                refine h ty.«end».line ?_
                rw [hcd]
                simp only [contentEndLines, List.mem_filterMap]
                exact ⟨BibtexDeclaration.Str ty, hd, rfl⟩
              simp [declMatches, contains_eq_false_of_line ty pos hline]
          | Entry ty =>
              have hline : ty.«end».line < pos.line := by
                refine h ty.«end».line ?_
                rw [hcd]
                simp only [contentEndLines, List.mem_filterMap]
                exact ⟨BibtexDeclaration.Entry ty, hd, rfl⟩
              simp [declMatches, contains_eq_false_of_line ty pos hline]
          | Comment => simp [declMatches]
        rw [hany]
        rfl
  · unfold latexLabelPrepareRename
    rw [find_label_eq_none _ _ hocc]
    rfl
  · unfold latexLabelRename
    rw [find_label_eq_none _ _ hocc]

/-- A current document whose only tested ranges end on line 0. -/
def exampleDocC9 : Document where
  uri := "short.bib"
  content := DocumentContent.Bibtex
    ⟨[BibtexDeclaration.Entry ⟨⟨0, 0⟩, ⟨0, 8⟩⟩]⟩

theorem claim_C9_witness :
    (∀ l ∈ contentEndLines exampleDocC9.content, l < (Position.mk 5 0).line)
    ∧ (bibtexEntryTypeExecute entryTypeCatalog
        ⟨⟨⟨5, 0⟩⟩, exampleDocC9, []⟩ = []
      ∧ latexLabelPrepareRename ⟨⟨⟨5, 0⟩⟩, exampleDocC9, []⟩ = none
      ∧ latexLabelRename ⟨⟨⟨⟨5, 0⟩⟩, "x"⟩, exampleDocC9, []⟩ = none) :=
  ⟨by decide, claim_C9 entryTypeCatalog exampleDocC9 [] ⟨5, 0⟩ "x" (by decide)⟩

/-- C6: the choice combinator returns the result of the first provider in
registration order whose result is usable, invoking exactly the providers
up to and including it and none after; when no provider yields a usable
result it returns the canonical empty output after invoking them all. -/
theorem claim_C6 {Req O : Type} (usable : O → Bool) (emptyOut : O)
    (ps : List (Req → O)) (req : Req) :
    ((∀ p ∈ ps, usable (p req) = false) →
      choiceExecute usable emptyOut ps req = emptyOut)
    ∧ (∀ (i : Nat) (hi : i < ps.length),
        (∀ (j : Nat) (hj : j < i),
          usable (ps.get ⟨j, Nat.lt_trans hj hi⟩ req) = false) →
        usable (ps.get ⟨i, hi⟩ req) = true →
        choiceExecute usable emptyOut ps req = ps.get ⟨i, hi⟩ req
        ∧ choiceInvoked usable ps req = i + 1) := by
  constructor
  · intro h
    induction ps with
    | nil => rfl
    | cons p rest ih =>
        have hp := h p (List.mem_cons_self ..)
        simp only [choiceExecute, hp]
        simpa using ih (fun q hq => h q (List.mem_cons_of_mem _ hq))
  · intro i
    induction ps generalizing i with
    | nil => intro hi; exact absurd hi (Nat.not_lt_zero i)
    | cons p rest ih =>
        intro hi hbefore hus
        cases i with
        | zero =>
            refine ⟨?_, ?_⟩
            · simp only [choiceExecute]
              rw [if_pos (by simpa using hus)]
              rfl
            · simp only [choiceInvoked]
              rw [if_pos (by simpa using hus)]
        | succ n =>
            have hp : usable (p req) = false := by
              simpa using hbefore 0 (Nat.succ_pos n)
            have hrec := ih n (Nat.lt_of_succ_lt_succ hi)
              (fun j hj => by simpa using hbefore (j + 1) (Nat.succ_lt_succ hj))
              (by simpa using hus)
            refine ⟨?_, ?_⟩
            · simp only [choiceExecute, hp]
              simpa using hrec.1
            · simp only [choiceInvoked, hp]
              rw [if_neg (by simp)]
              rw [hrec.2]
              omega

/-- A concrete provider list: the first is never usable, the second always
is. -/
def exampleProvidersC6 : List (Nat → Option Nat) :=
  [fun _ => none, fun n => some (n + 1)]

/-- A concrete provider list: the first is always usable, the second would
be observable if invoked. -/
def exampleProvidersC6b : List (Nat → Option Nat) :=
  [fun n => some (n + 1), fun _ => none]

theorem claim_C6_witness :
    (choiceExecute Option.isSome none exampleProvidersC6 4 = some 5
      ∧ choiceInvoked Option.isSome exampleProvidersC6 4 = 2)
    ∧ choiceInvoked Option.isSome exampleProvidersC6b 4 = 1 := by
  constructor
  · have h := (claim_C6 Option.isSome none exampleProvidersC6 4).2 1
      (by decide)
      (fun j hj => by
        have : j = 0 := by omega
        subst this
        rfl)
      rfl
    exact ⟨h.1.trans rfl, h.2⟩
  · have h := (claim_C6 Option.isSome none exampleProvidersC6b 4).2 0
      (by decide)
      (fun j hj => absurd hj (by omega))
      rfl
    exact h.2
